import Mathlib

/-!
Verification of the mhzx downloader (`Download/mhzx_downloader.py`).

This file gives a shallow embedding of the pure/decidable core of the
downloader — dedup-key stripping, batch filtering, record construction,
credential embedding, store partitioning, QR-decode fallback, the retry
wrapper, the per-article resolution control flow and the flat export —
and proves the spec's testable properties about it.

External effects (the browser automation surface, the image decoder, the
random jitter source) enter as explicit oracle parameters; Python
exceptions are modelled as `Except` error values; the single-threaded
cooperative scheduler is modelled with per-article outcomes listed in
input order (completion order is abstracted; no claim below depends on
ordering of the shared accumulator).
-/

namespace Mhzx

/-! ## String utilities

Python's substring test `pat in s` and `str.lower()`.  The repository
only lowercases ASCII extension markers, so `Char.toLower` (ASCII) is a
faithful model of `.lower()` here. -/

/-- `hasPrefixL pat l`: `l` starts with `pat` (`List Char` version). -/
def hasPrefixL : List Char → List Char → Bool
  | [], _ => true
  | _ :: _, [] => false
  | p :: ps, c :: cs => if p = c then hasPrefixL ps cs else false

/-- `hasInfixL pat l`: `pat` occurs contiguously inside `l`. -/
def hasInfixL (pat : List Char) : List Char → Bool
  | [] => hasPrefixL pat []
  | c :: cs => hasPrefixL pat (c :: cs) || hasInfixL pat cs

/-- Python's `pat in s` substring test. -/
def containsSub (pat s : String) : Bool :=
  hasInfixL pat.data s.data

/-- Python's `s.lower()` (ASCII case folding; the extension markers the
code compares against are ASCII). -/
def toLowerStr (s : String) : String :=
  ⟨s.data.map Char.toLower⟩

/-! ## Dedup-key stripping

`DownloaderAsync.load_existing_names` strips the part suffix with
`re.sub(r"_部分\d+$", "", name)`.  The regex removes one trailing
occurrence of `_部分` followed by a nonempty digit run at the end of the
string.  `\d` is modelled as an ASCII digit and `$` as end-of-string
(stored names come from `text_content().strip()`, so the
before-trailing-newline reading of `$` never fires on them). -/

/-- Strip a trailing `_部分<digits>` suffix from a character list:
the maximal trailing digit run, when nonempty and immediately preceded
by `_部分`, is removed together with that marker. -/
def stripChars (cs : List Char) : List Char :=
  let r := cs.reverse
  let ds := r.takeWhile Char.isDigit
  let rest := r.dropWhile Char.isDigit
  if ds = [] then cs
  else if rest.take 3 = ['分', '部', '_'] then (rest.drop 3).reverse
  else cs

/-- The dedup-key function: `re.sub(r"_部分\d+$", "", name)`. -/
def stripPartSuffix (s : String) : String :=
  ⟨stripChars s.data⟩

/-! ## Decimal rendering

Python's f-string `f"{name}_部分{url_index + 1}"` renders the part index
in decimal; `natToDecimal` is that rendering. -/

/-- A single decimal digit character. -/
def digitChar : Nat → Char
  | 0 => '0' | 1 => '1' | 2 => '2' | 3 => '3' | 4 => '4'
  | 5 => '5' | 6 => '6' | 7 => '7' | 8 => '8' | 9 => '9'
  | _ => '*'

/-- Fuelled most-significant-first decimal digit expansion. -/
def natDigitsAux : Nat → Nat → List Char
  | 0, _ => []
  | fuel + 1, n =>
    if n < 10 then [digitChar n]
    else natDigitsAux fuel (n / 10) ++ [digitChar (n % 10)]

/-- Decimal rendering of a natural number, as an f-string would do. -/
def natToDecimal (n : Nat) : String :=
  ⟨natDigitsAux (n + 1) n⟩

/-! ## Data model -/

/-- One input article reference (`articles.json` entry); a missing
`name`/`url` key reads as `""` via `item.get(..., "")`. -/
structure ArticleRef where
  name : String
  url : String
deriving DecidableEq, Repr

/-- One resolved link record, as appended to `self.links` and persisted
to the JSON stores.  `get_attribute` can yield `None`, hence the
optional passwords. -/
structure LinkRecord where
  name : String
  article_url : String
  download_url : String
  download_pwd : Option String
  extract_pwd : Option String
deriving DecidableEq, Repr

/-! ## Credential embedding and record construction
(`MhzxDownloader.process_single`, the accumulation block) -/

/-- The per-URL credential rewrite: a `pan.baidu.com` address without a
`?pwd=` marker and with a truthy (non-`None`, nonempty) download
password gets `?pwd=<password>` appended; otherwise the address is kept. -/
def applyPwd (dp : Option String) (u : String) : String :=
  match dp with
  | some p =>
    if containsSub "pan.baidu.com" u && !containsSub "?pwd=" u && !(p = "") then
      u ++ "?pwd=" ++ p
    else u
  | none => u

/-- One accumulated record: the name gets a `_部分{i+1}` suffix exactly
when the article yielded more than one address (`k` is the total count,
`i` the 0-based index from `enumerate`). -/
def mkRecord (name au : String) (k : Nat) (dp ep : Option String) (i : Nat)
    (u : String) : LinkRecord :=
  { name := if 1 < k then name ++ "_部分" ++ natToDecimal (i + 1) else name
    article_url := au
    download_url := applyPwd dp u
    download_pwd := dp
    extract_pwd := ep }

/-- The `for url_index, download_url in enumerate(all_download_urls)`
loop, with the running index made explicit. -/
def mkRecordsAux (name au : String) (k : Nat) (dp ep : Option String) :
    Nat → List String → List LinkRecord
  | _, [] => []
  | i, u :: rest =>
    mkRecord name au k dp ep i u :: mkRecordsAux name au k dp ep (i + 1) rest

/-- All records an article's resolved addresses contribute to the shared
accumulator. -/
def mkRecords (name au : String) (urls : List String) (dp ep : Option String) :
    List LinkRecord :=
  mkRecordsAux name au urls.length dp ep 0 urls

/-! ## Link store (`MhzxDownloader.save`, `DownloaderAsync.load_existing_names`) -/

/-- The partitioning loop of `save`: each new link goes to the
`pan_baidu` list when its `download_url` contains `"pan.baidu.com"`,
otherwise to the `no_pan_baidu` list, preserving order. -/
def partitionLinks : List LinkRecord → List LinkRecord × List LinkRecord
  | [] => ([], [])
  | l :: rest =>
    let (p, np) := partitionLinks rest
    if containsSub "pan.baidu.com" l.download_url then (l :: p, np) else (p, l :: np)

/-- The merge step of `save`: when there are new links, each partition
file becomes existing records ++ new records of that partition; with no
new links the files are left untouched. -/
def saveMerge (panStore noPanStore links : List LinkRecord) :
    List LinkRecord × List LinkRecord :=
  if links.isEmpty then (panStore, noPanStore)
  else
    let (p, np) := partitionLinks links
    (panStore ++ p, noPanStore ++ np)

/-- The seen-name set derived from one store's parsed records: entries
with a falsy (empty) name are skipped by `if name := item.get("name")`,
the rest contribute their stripped dedup key.  (The Python code builds a
`set`; only membership matters below.) -/
def seenNamesOfItems (items : List LinkRecord) : List String :=
  (items.filter fun r => !(r.name = "")).map fun r => stripPartSuffix r.name

/-- What reading and parsing a store file can come to before the
name-extraction loop runs: the `open` call raises (missing/unreadable
file), `json.load` raises (invalid JSON), or a record list is parsed. -/
inductive ReadOutcome where
  | fileError
  | jsonError
  | parsed (items : List LinkRecord)

/-- The `try` block body of `load_existing_names`: an error outcome
raises, a parsed store yields its seen-name set. -/
def loadExistingNamesBody : ReadOutcome → Except Unit (List String)
  | .fileError => .error ()
  | .jsonError => .error ()
  | .parsed items => .ok (seenNamesOfItems items)

/-- `DownloaderAsync.load_existing_names`: the bare `except:` returns
the `name_set` that was bound first in the `try` block — still empty
when the failure happened while opening or parsing the file. -/
def load_existing_names (r : ReadOutcome) : List String :=
  match loadExistingNamesBody r with
  | .ok s => s
  | .error _ => []

/-! ## Batch filtering (`MhzxDownloader.produce`) -/

/-- The skip test of `produce`: an input article is dropped when its
(raw) name is a member of either partition's seen-name set. -/
def keepArticle (pan noPan : List String) (a : ArticleRef) : Bool :=
  !(pan.contains a.name || noPan.contains a.name)

/-- `items_to_process`: the input batch restricted to articles that
survive the skip test (the positional `count` the code threads through
does not affect any claim and is omitted). -/
def filterBatch (pan noPan : List String) (batch : List ArticleRef) :
    List ArticleRef :=
  batch.filter (keepArticle pan noPan)

/-- All records one run appends to the shared accumulator, given an
oracle `resolve` describing what the automation surface yields for each
article (addresses, download password, extract password).  Completion
order of the concurrent tasks is abstracted to input order; no claim
depends on the accumulator's ordering. -/
def runLinks (resolve : ArticleRef → List String × Option String × Option String)
    (pan noPan : List String) (batch : List ArticleRef) : List LinkRecord :=
  (filterBatch pan noPan batch).flatMap fun a =>
    mkRecords a.name a.url (resolve a).1 (resolve a).2.1 (resolve a).2.2

/-- One full `produce` run against readable stores: load the seen sets,
filter, resolve, merge-persist.  Returns the two store files after the
run. -/
def runBatch (resolve : ArticleRef → List String × Option String × Option String)
    (panStore noPanStore : List LinkRecord) (batch : List ArticleRef) :
    List LinkRecord × List LinkRecord :=
  saveMerge panStore noPanStore
    (runLinks resolve (seenNamesOfItems panStore) (seenNamesOfItems noPanStore) batch)

/-! ## Image classification and QR fallback
(`DownloaderAsync.is_image_url`, `DownloaderAsync.decode_qr_async`) -/

/-- The fixed image-extension set (a Python `set`; iteration order is
irrelevant to the any-of test). -/
def image_extensions : List String :=
  [".jpg", ".jpeg", ".png", ".gif", ".bmp", ".tiff", ".webp", ".svg"]

/-- `is_image_url`: a non-falsy URL is an image when any extension
marker occurs in its lowercased text. -/
def is_image_url (url : String) : Bool :=
  if url = "" then false
  else image_extensions.any fun ext => containsSub ext (toLowerStr url)

/-- Oracle for the effectful pieces of the QR path: the HTTP fetch
(`context.request.get`; an error value is a raised exception, otherwise
status code and body bytes), `cv2.imdecode` (`none` = decode returned
`None`), and `detectAndDecode` applied to preprocessing variant `i` of a
decoded image (an error value is a raised exception, `ok s` is the
returned text — possibly empty). -/
structure QrEnv where
  fetch : String → Except Unit (Nat × List Nat)
  imdecode : List Nat → Option Nat
  variant : Nat → Nat → Except Unit String

/-- The five preprocessing attempts of `_process_qr_image`, in order. -/
def decodeMethods (env : QrEnv) (img : Nat) : List (Except Unit String) :=
  (List.range 5).map fun i => env.variant i img

/-- The decode loop: a raising variant is skipped (`except: continue`),
an empty decode result is skipped (`if data:`), the first nonempty
result is returned; exhaustion yields `None`. -/
def firstDecoded : List (Except Unit String) → Option String
  | [] => none
  | .ok s :: rest => if s = "" then firstDecoded rest else some s
  | .error _ :: rest => firstDecoded rest

/-- `_process_qr_image`: `None` when `cv2.imdecode` fails, otherwise the
decode loop over the five variants. -/
def process_qr_image (env : QrEnv) (bytes : List Nat) : Option String :=
  match env.imdecode bytes with
  | none => none
  | some img => firstDecoded (decodeMethods env img)

/-- `decode_qr_async`: a raising fetch or a non-200 status yields `None`
(logged, not raised); otherwise the image is processed. -/
def decode_qr_async (env : QrEnv) (url : String) : Option String :=
  match env.fetch url with
  | .error _ => none
  | .ok (status, body) => if status = 200 then process_qr_image env body else none

/-- The caller's use of the decoder in `process_single`: only image URLs
are decoded, and only a truthy decode result replaces the popup URL. -/
def resolvePopupUrl (env : QrEnv) (popup_url : String) : String :=
  if is_image_url popup_url then
    match decode_qr_async env popup_url with
    | some d => if d = "" then popup_url else d
    | none => popup_url
  else popup_url

/-! ## Per-article resolution (`MhzxDownloader.process_single`) -/

/-- What the secondary page offers once the primary popup has opened:
the two best-effort credential reads (`None` when the field is absent
or `get_attribute` yields nothing) and, per download button, either a
raised click/popup failure (error, button skipped) or the captured
popup URL. -/
structure PageData where
  dpwd : Option String
  epwd : Option String
  buttons : List (Except Unit String)
deriving Repr

/-- Outcome of one attempt's primary click, as the automation surface
presents it. `popupTimeout`: `expect_popup` raised, so `new_page` was
never bound.  `popupLoadFail`: the popup was captured (`new_page`
bound) but `wait_for_load_state` raised.  `opened`: the secondary page
is up.  `otherError`: an exception outside the inner `try` (e.g. the
`goto`). -/
inductive PrimaryStep where
  | popupTimeout
  | popupLoadFail
  | opened (pd : PageData)
  | otherError

/-- Result of one `process_single` call: the records appended to the
shared accumulator, whether the call ended in the outer exception
handler (terminal failure), and how many primary-click attempts were
made in total. -/
structure SingleResult where
  records : List LinkRecord
  failed : Bool
  attemptsMade : Nat
deriving DecidableEq, Repr

/-- The button loop: failing buttons are skipped (`except: continue`),
successful ones contribute their popup URL after image/QR handling. -/
def collectUrls (qr : QrEnv) (buttons : List (Except Unit String)) : List String :=
  buttons.filterMap fun b =>
    match b with
    | .error _ => none
    | .ok u => some (resolvePopupUrl qr u)

/-- `process_single`, driven by an oracle `env` giving each attempt's
primary-click outcome.

On `popupTimeout` the cleanup line `await self.safe_close_page(new_page)`
in the `except` handler references the never-bound local `new_page`;
the resulting `UnboundLocalError` escapes the handler before the retry
test runs and is caught by the outer `except Exception`: the article
fails terminally after this one attempt, appending nothing.

On `popupLoadFail` the handler completes and, while `retry_count <
max_retries`, recurses with `retry_count + 1`; the failed attempt's
local `all_download_urls` is discarded, so only the final attempt can
append records.  Exhaustion re-raises into the outer handler. -/
def process_single (qr : QrEnv) (env : Nat → PrimaryStep) (name article_url : String)
    (retry_count max_retries : Nat) : SingleResult :=
  match env retry_count with
  | .popupTimeout => { records := [], failed := true, attemptsMade := 1 }
  | .popupLoadFail =>
    if h : retry_count < max_retries then
      let r := process_single qr env name article_url (retry_count + 1) max_retries
      { r with attemptsMade := r.attemptsMade + 1 }
    else { records := [], failed := true, attemptsMade := 1 }
  | .opened pd =>
    { records := mkRecords name article_url (collectUrls qr pd.buttons) pd.dpwd pd.epwd
      failed := false
      attemptsMade := 1 }
  | .otherError => { records := [], failed := true, attemptsMade := 1 }
termination_by max_retries - retry_count
decreasing_by omega

/-! ## Scheduler (`process_with_semaphore`, `produce`'s gather) -/

/-- Exception classes a per-article task can raise past its own
handlers, matching the two `except` arms of `process_with_semaphore`. -/
inductive TaskExc where
  | timeoutExc
  | otherExc
deriving DecidableEq, Repr

/-- `exceptOk t`: the task ran to completion rather than raising. -/
def exceptOk {ε α : Type} : Except ε α → Bool
  | .ok _ => true
  | .error _ => false

/-- `process_with_semaphore`: an exception from the wrapped task is
caught and logged — the task's outcome becomes "no records, failed",
and nothing propagates. -/
def process_with_semaphore (t : Except TaskExc (List LinkRecord)) :
    List LinkRecord × Bool :=
  match t with
  | .ok l => (l, true)
  | .error _ => ([], false)

/-- The gather over the filtered batch: one guarded outcome per article,
in input order.  The result type has no error component: no unhandled
error can leave the batch run. -/
def runScheduler (tasks : ArticleRef → Except TaskExc (List LinkRecord))
    (batch : List ArticleRef) : List (List LinkRecord × Bool) :=
  batch.map fun a => process_with_semaphore (tasks a)

/-- Number of successfully resolved articles among the outcomes. -/
def successCount (results : List (List LinkRecord × Bool)) : Nat :=
  (results.filter fun r => r.2).length

/-! ## Retry wrapper (`async_retry`)

Delays are modelled over `ℚ` (the Python floats carry no claim-relevant
rounding here), the `numpy.random.uniform(-jitter, jitter)` draw as an
oracle `j`, and the slept durations as an explicit trace.  The result's
error component is the propagated exception: `some e` is a re-raised
captured failure, `none` is the final `raise last_exception` firing
with `last_exception = None` (Python turns that into a fresh
`TypeError`). -/

/-- The backoff `min(base_delay * (2 ** attempt), max_delay)`. -/
def retryDelay (base maxd : ℚ) (attempt : Nat) : ℚ :=
  min (base * 2 ^ attempt) maxd

/-- The `for attempt in range(max_retries)` loop of `async_retry`'s
wrapper, from loop index `attempt` on: a successful call returns; a
failure either sleeps `delay + j attempt` and continues (when further
attempts remain) or re-raises the captured exception; falling off the
loop (only possible when no iteration ran) raises `None`. -/
def retryAux {E A : Type} (op : Nat → Except E A) (j : Nat → ℚ) (base maxd : ℚ)
    (max_retries : Nat) (attempt : Nat) : List ℚ × Except (Option E) A :=
  if attempt < max_retries then
    match op attempt with
    | .ok a => ([], .ok a)
    | .error e =>
      if attempt < max_retries - 1 then
        let actual := retryDelay base maxd attempt + j attempt
        let r := retryAux op j base maxd max_retries (attempt + 1)
        (actual :: r.1, r.2)
      else ([], .error (some e))
  else ([], .error none)
termination_by max_retries - attempt
decreasing_by omega

/-- `async_retry(max_retries, base_delay, max_delay)` applied to an
operation whose `attempt`-th call yields `op attempt`: the slept delays
and the final outcome. -/
def asyncRetryModel {E A : Type} (op : Nat → Except E A) (j : Nat → ℚ)
    (base maxd : ℚ) (max_retries : Nat) : List ℚ × Except (Option E) A :=
  retryAux op j base maxd max_retries 0

/-! ## Flat export (`save_as_txt`) -/

/-- The files `save_as_txt` touches: the JSON store it reads
(`pan_baidu.json`, parsed) and the two plaintext outputs, `none` when a
file does not exist. -/
structure ExportFS where
  store : List LinkRecord
  urlFile : Option (List String)
  pwdFile : Option (List String)
deriving DecidableEq, Repr

/-- The `if pwd:` truthiness test of the password-writing loop: a falsy
entry (`None` or `""`) is skipped, anything else is written. -/
def truthyPwd : Option String → Option String
  | some s => if s = "" then none else some s
  | none => none

/-- The password lines actually written: the deduplicated
`extract_pwd` set with falsy entries skipped. -/
def pwdLines (data : List LinkRecord) : List String :=
  ((data.map fun r => r.extract_pwd).dedup).filterMap truthyPwd

/-- `save_as_txt`: reads the store, writes all `download_url`s (one per
line) when `url_list` is nonempty, and writes the truthy deduplicated
passwords when the password set is nonempty; an empty list leaves the
corresponding output file untouched.  The store itself is only read. -/
def save_as_txt (fs : ExportFS) : ExportFS :=
  let url_list := fs.store.map fun r => r.download_url
  let pwdSet := (fs.store.map fun r => r.extract_pwd).dedup
  { store := fs.store
    urlFile := if url_list.isEmpty then fs.urlFile else some url_list
    pwdFile := if pwdSet.isEmpty then fs.pwdFile else some (pwdLines fs.store) }

/-! ## Helper lemmas -/

theorem takeWhile_all_append {p : Char → Bool} {l1 : List Char} (c : Char) (t : List Char)
    (h1 : ∀ x ∈ l1, p x = true) (hc : p c = false) :
    (l1 ++ c :: t).takeWhile p = l1 := by
  induction l1 with
  | nil => simp [List.takeWhile_cons, hc]
  | cons a l ih =>
    have ha : p a = true := h1 a (by simp)
    simp only [List.cons_append, List.takeWhile_cons, ha]
    simp [ih fun x hx => h1 x (by simp [hx])]

theorem dropWhile_all_append {p : Char → Bool} {l1 : List Char} (c : Char) (t : List Char)
    (h1 : ∀ x ∈ l1, p x = true) (hc : p c = false) :
    (l1 ++ c :: t).dropWhile p = c :: t := by
  induction l1 with
  | nil => simp [List.dropWhile_cons, hc]
  | cons a l ih =>
    have ha : p a = true := h1 a (by simp)
    simp only [List.cons_append, List.dropWhile_cons, ha]
    simp [ih fun x hx => h1 x (by simp [hx])]

theorem digitChar_isDigit {d : Nat} (hd : d < 10) : (digitChar d).isDigit = true := by
  interval_cases d <;> decide

theorem natDigitsAux_digits :
    ∀ fuel n, ∀ c ∈ natDigitsAux fuel n, c.isDigit = true := by
  intro fuel
  induction fuel with
  | zero => intro n c hc; simp [natDigitsAux] at hc
  | succ f ih =>
    intro n c hc
    by_cases h : n < 10
    · simp [natDigitsAux, h] at hc
      subst hc
      exact digitChar_isDigit h
    · simp [natDigitsAux, h] at hc
      rcases hc with hc | hc
      · exact ih _ c hc
      · subst hc
        exact digitChar_isDigit (Nat.mod_lt _ (by norm_num))

theorem natDigitsAux_ne_nil (fuel n : Nat) (hf : 0 < fuel) :
    natDigitsAux fuel n ≠ [] := by
  cases fuel with
  | zero => omega
  | succ f => by_cases h : n < 10 <;> simp [natDigitsAux, h]

theorem natToDecimal_digits (n : Nat) :
    ∀ c ∈ (natToDecimal n).data, c.isDigit = true :=
  natDigitsAux_digits (n + 1) n

theorem natToDecimal_ne_nil (n : Nat) : (natToDecimal n).data ≠ [] :=
  natDigitsAux_ne_nil (n + 1) n (Nat.succ_pos n)

theorem stripChars_append (base : List Char) (D : List Char) (hne : D ≠ [])
    (hdig : ∀ c ∈ D, c.isDigit = true) :
    stripChars (base ++ '_' :: '部' :: '分' :: D) = base := by
  have h1 : (base ++ '_' :: '部' :: '分' :: D).reverse
      = D.reverse ++ '分' :: '部' :: '_' :: base.reverse := by
    simp
  have hd : ∀ x ∈ D.reverse, Char.isDigit x = true := fun x hx =>
    hdig x (List.mem_reverse.mp hx)
  have hfen : Char.isDigit '分' = false := by decide
  have htw : (D.reverse ++ '分' :: '部' :: '_' :: base.reverse).takeWhile Char.isDigit
      = D.reverse := takeWhile_all_append _ _ hd hfen
  have hdw : (D.reverse ++ '分' :: '部' :: '_' :: base.reverse).dropWhile Char.isDigit
      = '分' :: '部' :: '_' :: base.reverse := dropWhile_all_append _ _ hd hfen
  rw [stripChars, h1, htw, hdw]
  rw [if_neg (by simpa using hne)]
  simp

theorem stripPartSuffix_part (base : String) (m : Nat) :
    stripPartSuffix (base ++ "_部分" ++ natToDecimal m) = base := by
  have hdata : (base ++ "_部分" ++ natToDecimal m).data
      = base.data ++ '_' :: '部' :: '分' :: (natToDecimal m).data := by
    rw [String.data_append, String.data_append, List.append_assoc]
    rfl
  rw [stripPartSuffix, hdata,
    stripChars_append _ _ (natToDecimal_ne_nil m) (natToDecimal_digits m)]

theorem mkRecordsAux_length (name au : String) (k : Nat) (dp ep : Option String) :
    ∀ (urls : List String) (i : Nat),
      (mkRecordsAux name au k dp ep i urls).length = urls.length := by
  intro urls
  induction urls with
  | nil => intro i; rfl
  | cons u rest ih => intro i; simp [mkRecordsAux, ih]

theorem mkRecordsAux_get (name au : String) (k : Nat) (dp ep : Option String) :
    ∀ (urls : List String) (i0 i : Nat)
      (h : i < (mkRecordsAux name au k dp ep i0 urls).length) (h2 : i < urls.length),
      (mkRecordsAux name au k dp ep i0 urls).get ⟨i, h⟩
        = mkRecord name au k dp ep (i0 + i) (urls.get ⟨i, h2⟩) := by
  intro urls
  induction urls with
  | nil => intro i0 i h h2; simp at h2
  | cons u rest ih =>
    intro i0 i h h2
    cases i with
    | zero => simp [mkRecordsAux]
    | succ m =>
      have hm : m < (mkRecordsAux name au k dp ep (i0 + 1) rest).length := by
        simpa [mkRecordsAux, mkRecordsAux_length] using h
      have hm2 : m < rest.length := by simpa using h2
      show (mkRecordsAux name au k dp ep (i0 + 1) rest).get ⟨m, hm⟩ = _
      rw [ih (i0 + 1) m hm hm2]
      congr 1
      omega

theorem mkRecords_length (name au : String) (urls : List String) (dp ep : Option String) :
    (mkRecords name au urls dp ep).length = urls.length :=
  mkRecordsAux_length name au urls.length dp ep urls 0

theorem mkRecordsAux_name_mem (name au : String) (k : Nat) (dp ep : Option String) :
    ∀ (urls : List String) (i0 : Nat) (r : LinkRecord),
      r ∈ mkRecordsAux name au k dp ep i0 urls →
      r.name = name ∨ stripPartSuffix r.name = name := by
  intro urls
  induction urls with
  | nil => intro i0 r hr; simp [mkRecordsAux] at hr
  | cons u rest ih =>
    intro i0 r hr
    simp only [mkRecordsAux, List.mem_cons] at hr
    rcases hr with hr | hr
    · subst hr
      by_cases hk : 1 < k
      · right
        simp only [mkRecord, hk, if_pos]
        exact stripPartSuffix_part name (i0 + 1)
      · left
        simp [mkRecord, hk]
    · exact ih (i0 + 1) r hr

theorem mkRecords_name_mem (name au : String) (urls : List String)
    (dp ep : Option String) (r : LinkRecord) (hr : r ∈ mkRecords name au urls dp ep) :
    r.name = name ∨ stripPartSuffix r.name = name :=
  mkRecordsAux_name_mem name au urls.length dp ep urls 0 r hr

theorem partitionLinks_eq (links : List LinkRecord) :
    partitionLinks links
      = (links.filter fun l => containsSub "pan.baidu.com" l.download_url,
         links.filter fun l => !containsSub "pan.baidu.com" l.download_url) := by
  induction links with
  | nil => rfl
  | cons l rest ih =>
    by_cases h : containsSub "pan.baidu.com" l.download_url
      <;> simp [partitionLinks, ih, List.filter_cons, h]

theorem filter_length_split {α : Type} (p : α → Bool) (l : List α) :
    (l.filter p).length + (l.filter fun a => !p a).length = l.length := by
  induction l with
  | nil => rfl
  | cons a t ih =>
    by_cases h : p a <;> simp [List.filter_cons, h] <;> omega

theorem mkRecords_get (name au : String) (urls : List String) (dp ep : Option String)
    (i : Nat) (h : i < (mkRecords name au urls dp ep).length) (h2 : i < urls.length) :
    (mkRecords name au urls dp ep).get ⟨i, h⟩
      = mkRecord name au urls.length dp ep i (urls.get ⟨i, h2⟩) := by
  have := mkRecordsAux_get name au urls.length dp ep urls 0 i h h2
  simpa using this

/-! ## Claim theorems -/

/-- C4: the `save` step partitions the accumulated records totally: a
record lands in the primary-storage (`pan_baidu`) partition iff its
`download_url` contains `"pan.baidu.com"`, otherwise in the other
partition, and the two partitions together account for every record. -/
theorem save_partition_total_correct (links : List LinkRecord) :
    (∀ l, l ∈ (partitionLinks links).1 ↔
        l ∈ links ∧ containsSub "pan.baidu.com" l.download_url = true) ∧
    (∀ l, l ∈ (partitionLinks links).2 ↔
        l ∈ links ∧ containsSub "pan.baidu.com" l.download_url = false) ∧
    (partitionLinks links).1.length + (partitionLinks links).2.length = links.length := by
  rw [partitionLinks_eq]
  refine ⟨fun l => ?_, fun l => ?_, filter_length_split _ links⟩
  · simp [List.mem_filter]
  · simp [List.mem_filter]

/-- C5: per resolved address, the recorded `download_url` is the
address with `?pwd=<password>` appended exactly when the address
contains `pan.baidu.com`, lacks a `?pwd=` marker, and a non-empty
download password was read; an address already carrying the marker, or
a non-primary-storage address, is recorded unchanged. -/
theorem credential_propagation (name au : String) (urls : List String)
    (dp ep : Option String) (i : Nat)
    (h : i < (mkRecords name au urls dp ep).length) (h2 : i < urls.length) :
    (∀ p, dp = some p → p ≠ "" →
        containsSub "pan.baidu.com" (urls.get ⟨i, h2⟩) = true →
        containsSub "?pwd=" (urls.get ⟨i, h2⟩) = false →
        ((mkRecords name au urls dp ep).get ⟨i, h⟩).download_url
          = urls.get ⟨i, h2⟩ ++ "?pwd=" ++ p) ∧
    (containsSub "?pwd=" (urls.get ⟨i, h2⟩) = true →
        ((mkRecords name au urls dp ep).get ⟨i, h⟩).download_url = urls.get ⟨i, h2⟩) ∧
    (containsSub "pan.baidu.com" (urls.get ⟨i, h2⟩) = false →
        ((mkRecords name au urls dp ep).get ⟨i, h⟩).download_url = urls.get ⟨i, h2⟩) := by
  rw [mkRecords_get name au urls dp ep i h h2]
  refine ⟨?_, ?_, ?_⟩
  · intro p hdp hp hpan hpwd
    subst hdp
    simp only [mkRecord, applyPwd]
    rw [hpan, hpwd]
    simp [hp]
  · intro hpwd
    cases dp with
    | none => rfl
    | some p =>
      simp only [mkRecord, applyPwd]
      rw [hpwd]
      simp
  · intro hpan
    cases dp with
    | none => rfl
    | some p =>
      simp only [mkRecord, applyPwd]
      rw [hpan]
      simp

/-- C5 witness: a concrete `pan.baidu.com` address without a marker and
with password `"ab"` is recorded with `?pwd=ab` appended. -/
theorem credential_propagation_witness :
    ((mkRecords "n" "a" ["http://pan.baidu.com/s/1"] (some "ab") none).get
        ⟨0, by decide⟩).download_url = "http://pan.baidu.com/s/1" ++ "?pwd=" ++ "ab" :=
  (credential_propagation "n" "a" ["http://pan.baidu.com/s/1"] (some "ab") none 0
      (by decide) (by decide)).1 "ab" rfl (by decide) (by decide) (by decide)

/-- C6: an article resolving to `k` addresses yields exactly `k`
records; for `k > 1` the `i`-th record's name is the base name with
`_部分{i+1}` appended and stripping the part suffix recovers the base
name; for `k = 1` the single record keeps the unsuffixed base name. -/
theorem multi_target_naming (name au : String) (urls : List String)
    (dp ep : Option String) :
    (mkRecords name au urls dp ep).length = urls.length ∧
    (1 < urls.length → ∀ i (h : i < (mkRecords name au urls dp ep).length),
        ((mkRecords name au urls dp ep).get ⟨i, h⟩).name
            = name ++ "_部分" ++ natToDecimal (i + 1) ∧
        stripPartSuffix ((mkRecords name au urls dp ep).get ⟨i, h⟩).name = name) ∧
    (urls.length = 1 → ∀ i (h : i < (mkRecords name au urls dp ep).length),
        ((mkRecords name au urls dp ep).get ⟨i, h⟩).name = name) := by
  refine ⟨mkRecords_length name au urls dp ep, ?_, ?_⟩
  · intro hk i h
    have h2 : i < urls.length := by
      rw [← mkRecords_length name au urls dp ep]; exact h
    rw [mkRecords_get name au urls dp ep i h h2]
    constructor
    · simp [mkRecord, hk]
    · simp only [mkRecord, if_pos hk]
      exact stripPartSuffix_part name (i + 1)
  · intro hk i h
    have h2 : i < urls.length := by
      rw [← mkRecords_length name au urls dp ep]; exact h
    rw [mkRecords_get name au urls dp ep i h h2]
    simp [mkRecord, hk]

/-- C6 witness: two addresses give names `base_部分1`, `base_部分2`, and
stripping the second recovers `base`. -/
theorem multi_target_naming_witness :
    ((mkRecords "base" "a" ["u1", "u2"] none none).get ⟨1, by decide⟩).name
        = "base" ++ "_部分" ++ natToDecimal (1 + 1) ∧
    stripPartSuffix ((mkRecords "base" "a" ["u1", "u2"] none none).get
        ⟨1, by decide⟩).name = "base" :=
  (multi_target_naming "base" "a" ["u1", "u2"] none none).2.1 (by decide) 1 (by decide)

/-- C10: loading the seen-name set is total: a missing/unreadable file
and invalid JSON both land in the bare `except:` and return the empty
set instead of propagating, a parsed store yields its stripped-name
set, and with both loads failing (first run, no store files) the batch
filter keeps every article. -/
theorem load_existing_names_total :
    load_existing_names .fileError = [] ∧
    load_existing_names .jsonError = [] ∧
    (∀ items, load_existing_names (.parsed items) = seenNamesOfItems items) ∧
    (∀ batch : List ArticleRef,
        filterBatch (load_existing_names .fileError)
          (load_existing_names .jsonError) batch = batch) := by
  refine ⟨rfl, rfl, fun items => rfl, fun batch => ?_⟩
  show filterBatch [] [] batch = batch
  rw [filterBatch, List.filter_eq_self]
  intro a _
  rfl

/-- C1 counterexample: the skip test compares the article's *raw* name
against the stores' stripped dedup keys.  For an article whose own name
carries a part suffix (`bar_部分3`) the dedup key `bar` is present in
the primary store's seen set, yet the article survives the filter and a
re-run appends a fresh record for it to a store file. -/
theorem idempotent_skip_counterexample :
    stripPartSuffix "bar_部分3"
        ∈ seenNamesOfItems [⟨"bar_部分3", "a", "u", none, none⟩] ∧
    filterBatch (seenNamesOfItems [⟨"bar_部分3", "a", "u", none, none⟩])
        (seenNamesOfItems []) [⟨"bar_部分3", "art"⟩] = [⟨"bar_部分3", "art"⟩] ∧
    (runBatch (fun _ => (["http://example.com/f"], none, none))
        [⟨"bar_部分3", "a", "u", none, none⟩] [] [⟨"bar_部分3", "art"⟩]).2.length = 1 := by
  refine ⟨?_, ?_, ?_⟩ <;> decide

/-- C1 (amended): an article whose *name* — which equals its dedup key
whenever the name carries no part suffix — already appears among the
stored dedup keys of either partition is filtered out before
scheduling, and (for batches of suffix-free names) the run appends no
record whose dedup key is that article's. -/
theorem idempotent_skip
    (resolve : ArticleRef → List String × Option String × Option String)
    (ps ns : List LinkRecord) (batch : List ArticleRef) (a : ArticleRef)
    (hclean : ∀ b ∈ batch, stripPartSuffix b.name = b.name)
    (_ha : a ∈ batch)
    (hseen : a.name ∈ seenNamesOfItems ps ∨ a.name ∈ seenNamesOfItems ns) :
    a ∉ filterBatch (seenNamesOfItems ps) (seenNamesOfItems ns) batch ∧
    ∀ r ∈ runLinks resolve (seenNamesOfItems ps) (seenNamesOfItems ns) batch,
      stripPartSuffix r.name ≠ a.name := by
  have hkeep_mem : ∀ b : ArticleRef,
      keepArticle (seenNamesOfItems ps) (seenNamesOfItems ns) b = true →
      b.name ∉ seenNamesOfItems ps ∧ b.name ∉ seenNamesOfItems ns := by
    intro b hb
    rw [keepArticle] at hb
    simp only [Bool.not_eq_true'] at hb
    rcases Bool.or_eq_false_iff.mp hb with ⟨h1, h2⟩
    constructor
    · intro hm; simp at h1; exact h1 hm
    · intro hm; simp at h2; exact h2 hm
  constructor
  · intro hmem
    rcases List.mem_filter.mp hmem with ⟨-, hkeep⟩
    rcases hkeep_mem a hkeep with ⟨h1, h2⟩
    rcases hseen with h | h
    · exact h1 h
    · exact h2 h
  · intro r hr
    rcases List.mem_flatMap.mp hr with ⟨b, hb, hrb⟩
    have hbkeep := (List.mem_filter.mp hb).2
    have hbbatch := (List.mem_filter.mp hb).1
    have hbname : stripPartSuffix b.name = b.name := hclean b hbbatch
    have hstrip : stripPartSuffix r.name = b.name := by
      rcases mkRecords_name_mem b.name b.url _ _ _ r hrb with h | h
      · rw [h, hbname]
      · exact h
    rw [hstrip]
    intro heq
    rcases hkeep_mem b hbkeep with ⟨h1, h2⟩
    rcases hseen with h | h
    · exact h1 (heq ▸ h)
    · exact h2 (heq ▸ h)

/-- C1 witness: with `"seen"` already stored (and suffix-free names),
the article named `"seen"` is filtered out and contributes no record. -/
theorem idempotent_skip_witness :
    (⟨"seen", "art"⟩ : ArticleRef)
        ∉ filterBatch (seenNamesOfItems [⟨"seen", "a", "u", none, none⟩])
            (seenNamesOfItems []) [⟨"seen", "art"⟩, ⟨"new", "art2"⟩] ∧
    ∀ r ∈ runLinks (fun _ => ([], none, none))
        (seenNamesOfItems [⟨"seen", "a", "u", none, none⟩]) (seenNamesOfItems [])
        [⟨"seen", "art"⟩, ⟨"new", "art2"⟩],
      stripPartSuffix r.name ≠ "seen" :=
  idempotent_skip (fun _ => ([], none, none)) [⟨"seen", "a", "u", none, none⟩] []
    [⟨"seen", "art"⟩, ⟨"new", "art2"⟩] ⟨"seen", "art"⟩
    (by decide) (by decide) (Or.inl (by decide))

/-- `process_with_semaphore` records whether the guarded task completed
without raising. -/
theorem process_with_semaphore_snd (t : Except TaskExc (List LinkRecord)) :
    (process_with_semaphore t).2 = exceptOk t := by
  cases t <;> rfl

theorem filter_map_length {α β : Type} (f : α → β) (p : β → Bool) (l : List α) :
    ((l.map f).filter p).length = (l.filter fun a => p (f a)).length := by
  induction l with
  | nil => rfl
  | cons a t ih =>
    by_cases h : p (f a) <;> simp [List.filter_cons, h, ih]

/-- C3: the scheduler yields one guarded outcome per article (none
dropped, none cancelled, and — by the result type — no unhandled error
leaves the batch run); the success count is exactly the number of
articles whose own task completes; and changing one article's task
(e.g. to a terminal failure) leaves every other article's outcome and
the success count over the other articles unchanged. -/
theorem scheduler_isolation (tasks : ArticleRef → Except TaskExc (List LinkRecord))
    (batch : List ArticleRef) :
    (runScheduler tasks batch).length = batch.length ∧
    successCount (runScheduler tasks batch)
        = (batch.filter fun b => exceptOk (tasks b)).length ∧
    (∀ (tasks' : ArticleRef → Except TaskExc (List LinkRecord)) (a : ArticleRef),
      (∀ b, b ≠ a → tasks' b = tasks b) →
      (∀ (i : Nat) (b : ArticleRef), batch[i]? = some b → b ≠ a →
        (runScheduler tasks' batch)[i]? = (runScheduler tasks batch)[i]?) ∧
      (batch.filter fun b => !decide (b = a) && exceptOk (tasks' b)).length
        = (batch.filter fun b => !decide (b = a) && exceptOk (tasks b)).length) := by
  refine ⟨by simp [runScheduler], ?_, ?_⟩
  · rw [successCount, runScheduler, filter_map_length]
    congr 1
    apply List.filter_congr
    intro b _
    exact process_with_semaphore_snd (tasks b)
  · intro tasks' a hagree
    constructor
    · intro i b hib hne
      rw [runScheduler, runScheduler, List.getElem?_map, List.getElem?_map, hib]
      simp only [Option.map_some']
      rw [hagree b hne]
    · congr 1
      apply List.filter_congr
      intro b _
      by_cases hba : b = a
      · simp [hba]
      · rw [hagree b hba]

/-- C3 witness: failing the first article's task leaves the second
article's outcome unchanged. -/
theorem scheduler_isolation_witness :
    (runScheduler
        (fun b => if b = (⟨"x", "u"⟩ : ArticleRef) then Except.error TaskExc.otherExc
                  else Except.ok []) [⟨"x", "u"⟩, ⟨"y", "v"⟩])[1]?
      = (runScheduler (fun _ => Except.ok []) [⟨"x", "u"⟩, ⟨"y", "v"⟩])[1]? :=
  ((scheduler_isolation (fun _ => Except.ok []) [⟨"x", "u"⟩, ⟨"y", "v"⟩]).2.2
      (fun b => if b = (⟨"x", "u"⟩ : ArticleRef) then Except.error TaskExc.otherExc
                else Except.ok [])
      ⟨"x", "u"⟩ (fun b hb => by simp [hb])).1 1 ⟨"y", "v"⟩ rfl (by decide)

/-- C2 (code-bug evidence): on a primary popup timeout the cleanup in
the retry handler references the never-bound local `new_page`; the
resulting error is caught by the outer handler, so the article fails
terminally after a single attempt even with the full retry budget
available.  In contrast, a failure with `new_page` bound
(`wait_for_load_state`) does retry, and a success on the third attempt
records exactly the final attempt's outcome once. -/
theorem primary_popup_timeout_no_retry :
    process_single ⟨fun _ => .error (), fun _ => none, fun _ _ => .error ()⟩
        (fun _ => .popupTimeout) "n" "u" 0 3
      = { records := [], failed := true, attemptsMade := 1 } ∧
    process_single ⟨fun _ => .error (), fun _ => none, fun _ _ => .error ()⟩
        (fun i => if i < 2 then .popupLoadFail
                  else .opened ⟨some "pw", none, [.ok "http://o/f"]⟩) "n" "u" 0 3
      = { records := [⟨"n", "u", "http://o/f", some "pw", none⟩],
          failed := false, attemptsMade := 3 } := by
  have h2 : process_single ⟨fun _ => .error (), fun _ => none, fun _ _ => .error ()⟩
      (fun i => if i < 2 then .popupLoadFail
                else .opened ⟨some "pw", none, [.ok "http://o/f"]⟩) "n" "u" 2 3
      = { records := [⟨"n", "u", "http://o/f", some "pw", none⟩],
          failed := false, attemptsMade := 1 } := by
    rw [process_single.eq_def]
    decide
  have h1 : process_single ⟨fun _ => .error (), fun _ => none, fun _ _ => .error ()⟩
      (fun i => if i < 2 then .popupLoadFail
                else .opened ⟨some "pw", none, [.ok "http://o/f"]⟩) "n" "u" 1 3
      = { records := [⟨"n", "u", "http://o/f", some "pw", none⟩],
          failed := false, attemptsMade := 2 } := by
    rw [process_single.eq_def]
    norm_num
    rw [h2]
    simp
  constructor
  · rw [process_single.eq_def]
  · rw [process_single.eq_def]
    norm_num
    rw [h1]
    simp

theorem firstDecoded_none :
    ∀ l : List (Except Unit String),
      (∀ r ∈ l, r = .error () ∨ r = .ok "") → firstDecoded l = none := by
  intro l
  induction l with
  | nil => intro _; rfl
  | cons r t ih =>
    intro h
    rcases h r (by simp) with hr | hr
    · subst hr
      exact ih fun x hx => h x (by simp [hx])
    · subst hr
      simp only [firstDecoded, if_pos rfl]
      exact ih fun x hx => h x (by simp [hx])

/-- C7: for an address classified as an image, if the fetch raises, the
status is not 200, `imdecode` fails, or every preprocessing variant of
the decode either raises or yields no text, then the emitted address is
the original image address unchanged (and the decode step is total —
no exception escapes it). -/
theorem decode_fallback_exhaustion (env : QrEnv) (url : String)
    (himg : is_image_url url = true)
    (hfail : ∀ st body img, env.fetch url = .ok (st, body) → st = 200 →
        env.imdecode body = some img →
        ∀ r ∈ decodeMethods env img, r = .error () ∨ r = .ok "") :
    resolvePopupUrl env url = url := by
  have hdec : decode_qr_async env url = none := by
    rw [decode_qr_async]
    cases hf : env.fetch url with
    | error e => rfl
    | ok sb =>
      obtain ⟨st, body⟩ := sb
      by_cases hst : st = 200
      · subst hst
        show (if (200 : Nat) = 200 then process_qr_image env body else none) = none
        rw [if_pos rfl, process_qr_image]
        cases hi : env.imdecode body with
        | none => rfl
        | some img => exact firstDecoded_none _ (hfail 200 body img hf rfl hi)
      · show (if st = 200 then process_qr_image env body else none) = none
        rw [if_neg hst]
  rw [resolvePopupUrl, himg, hdec]
  simp

/-- C7 witness: every variant decodes to empty text on a concrete
image URL, and the original address is kept. -/
theorem decode_fallback_exhaustion_witness :
    resolvePopupUrl ⟨fun _ => .ok (200, []), fun _ => some 0, fun _ _ => .ok ""⟩
        "http://x/a.jpg" = "http://x/a.jpg" :=
  decode_fallback_exhaustion ⟨fun _ => .ok (200, []), fun _ => some 0, fun _ _ => .ok ""⟩
    "http://x/a.jpg" (by decide)
    (fun st body img _ _ _ r hr => Or.inr (by
      simp only [decodeMethods, List.mem_map] at hr
      obtain ⟨i, -, hi2⟩ := hr
      exact hi2.symm))

theorem retryAux_all_fail {E A : Type} (op : Nat → Except E A) (j : Nat → ℚ)
    (base maxd : ℚ) (n : Nat) (e : E) (hlast : op (n - 1) = .error e) :
    ∀ (m attempt : Nat), n - attempt ≤ m → attempt < n →
      (∀ k, attempt ≤ k → k < n → exceptOk (op k) = false) →
      retryAux op j base maxd n attempt
        = ((List.range' attempt (n - 1 - attempt)).map
            (fun i => retryDelay base maxd i + j i), .error (some e)) := by
  intro m
  induction m with
  | zero => intro attempt hle hlt _; omega
  | succ m ih =>
    intro attempt hle hlt hfails
    rw [retryAux.eq_def, if_pos hlt]
    split
    · rename_i a heq
      exfalso
      have := hfails attempt le_rfl hlt
      rw [heq] at this
      simp [exceptOk] at this
    · rename_i e' heq
      by_cases hmid : attempt < n - 1
      · rw [if_pos hmid,
          ih (attempt + 1) (by omega) (by omega) fun k hk1 hk2 => hfails k (by omega) hk2]
        have hrange : n - 1 - attempt = (n - 1 - (attempt + 1)) + 1 := by omega
        rw [hrange, List.range'_succ]
        simp
      · have h3 : (Except.error e' : Except E A) = Except.error e := by
          have hae : attempt = n - 1 := by omega
          rw [← heq, hae, hlast]
        have he' : e' = e := by injection h3
        subst he'
        rw [if_neg hmid]
        have hz : n - 1 - attempt = 0 := by omega
        rw [hz]
        simp

theorem retryAux_first_ok {E A : Type} (op : Nat → Except E A) (j : Nat → ℚ)
    (base maxd : ℚ) (n : Nat) (k : Nat) (a : A) (hk : k < n) (hok : op k = .ok a) :
    ∀ (m attempt : Nat), n - attempt ≤ m → attempt ≤ k →
      (∀ i, attempt ≤ i → i < k → exceptOk (op i) = false) →
      retryAux op j base maxd n attempt
        = ((List.range' attempt (k - attempt)).map
            (fun i => retryDelay base maxd i + j i), .ok a) := by
  intro m
  induction m with
  | zero => intro attempt hle hak _; omega
  | succ m ih =>
    intro attempt hle hak hfails
    have hlt : attempt < n := by omega
    rw [retryAux.eq_def, if_pos hlt]
    split
    · rename_i a' heq
      have hka : attempt = k := by
        by_contra hne
        have hlk : attempt < k := by omega
        have := hfails attempt le_rfl hlk
        rw [heq] at this
        simp [exceptOk] at this
      subst hka
      rw [heq] at hok
      have ha' : a' = a := by injection hok
      subst ha'
      simp
    · rename_i e' heq
      have hne : attempt ≠ k := by
        intro hc
        rw [hc, hok] at heq
        cases heq
      have hmid : attempt < n - 1 := by omega
      rw [if_pos hmid,
        ih (attempt + 1) (by omega) (by omega) fun i h1 h2 => hfails i (by omega) h2]
      have hrange : k - attempt = (k - (attempt + 1)) + 1 := by omega
      rw [hrange, List.range'_succ]
      simp

theorem retryAux_trace_mem {E A : Type} (op : Nat → Except E A) (j : Nat → ℚ)
    (base maxd : ℚ) (n : Nat) :
    ∀ (m attempt : Nat), n - attempt ≤ m →
      ∀ s ∈ (retryAux op j base maxd n attempt).1,
        ∃ i, s = retryDelay base maxd i + j i := by
  intro m
  induction m with
  | zero =>
    intro attempt hle s hs
    have hlt : ¬ attempt < n := by omega
    rw [retryAux.eq_def, if_neg hlt] at hs
    simp at hs
  | succ m ih =>
    intro attempt hle s hs
    by_cases hlt : attempt < n
    · rw [retryAux.eq_def, if_pos hlt] at hs
      split at hs
      · simp at hs
      · rename_i e' heq
        by_cases hmid : attempt < n - 1
        · rw [if_pos hmid] at hs
          simp only [List.mem_cons] at hs
          rcases hs with h | h
          · exact ⟨attempt, h⟩
          · exact ih (attempt + 1) (by omega) s h
        · rw [if_neg hmid] at hs
          simp at hs
    · rw [retryAux.eq_def, if_neg hlt] at hs
      simp at hs

theorem retryAux_congr {E A : Type} (op op' : Nat → Except E A) (j : Nat → ℚ)
    (base maxd : ℚ) (n : Nat) :
    ∀ (m attempt : Nat), n - attempt ≤ m →
      (∀ k, attempt ≤ k → k < n → op' k = op k) →
      retryAux op' j base maxd n attempt = retryAux op j base maxd n attempt := by
  intro m
  induction m with
  | zero =>
    intro attempt hle hag
    have hlt : ¬ attempt < n := by omega
    rw [retryAux.eq_def, if_neg hlt]
    conv_rhs => rw [retryAux.eq_def]
    rw [if_neg hlt]
  | succ m ih =>
    intro attempt hle hag
    by_cases hlt : attempt < n
    · rw [retryAux.eq_def, if_pos hlt]
      conv_rhs => rw [retryAux.eq_def]
      rw [if_pos hlt, hag attempt le_rfl hlt]
      cases hop : op attempt with
      | ok a => rfl
      | error e =>
        show (if attempt < n - 1 then
                ((retryDelay base maxd attempt + j attempt)
                    :: (retryAux op' j base maxd n (attempt + 1)).1,
                 (retryAux op' j base maxd n (attempt + 1)).2)
              else ([], .error (some e)))
            = (if attempt < n - 1 then
                ((retryDelay base maxd attempt + j attempt)
                    :: (retryAux op j base maxd n (attempt + 1)).1,
                 (retryAux op j base maxd n (attempt + 1)).2)
              else ([], .error (some e)))
        rw [ih (attempt + 1) (by omega) fun k h1 h2 => hag k (by omega) h2]
    · rw [retryAux.eq_def, if_neg hlt]
      conv_rhs => rw [retryAux.eq_def]
      rw [if_neg hlt]

/-- C8 counterexample: with `max_retries = 0` the loop body never runs
and the final `raise last_exception` fires with `last_exception = None`
(a fresh `TypeError`, modelled as `Except.error none`): no failure of
the wrapped operation — which is never executed — is propagated. -/
theorem async_retry_zero_attempts_counterexample :
    asyncRetryModel (fun _ => (Except.error "boom" : Except String Nat))
        (fun _ => 0) 1 10 0 = ([], Except.error none) ∧
    ∀ e : String,
      (asyncRetryModel (fun _ => (Except.error "boom" : Except String Nat))
          (fun _ => 0) 1 10 0).2 ≠ Except.error (some e) := by
  have h : asyncRetryModel (fun _ => (Except.error "boom" : Except String Nat))
      (fun _ => 0) 1 10 0 = ([], Except.error none) := by
    rw [asyncRetryModel, retryAux.eq_def]
    norm_num
  exact ⟨h, fun e => by rw [h]; simp⟩

/-- C8 (amended): for `max_attempts ≥ 1`, the wrapper propagates the
last failure unchanged after all attempts fail, returns the first
successful attempt's value having slept exactly once per preceding
failure, sleeps `min(base·2^attempt, max_delay) + jitter` before each
retry with the slept duration within ±10% of the backoff whenever the
jitter draw is, and never consults the operation beyond the first
`max_attempts` indices. -/
theorem async_retry_contract {E A : Type} (op : Nat → Except E A) (j : Nat → ℚ)
    (base maxd : ℚ) (n : Nat) (hn : 1 ≤ n) :
    (∀ e, (∀ k, k < n → exceptOk (op k) = false) → op (n - 1) = .error e →
        asyncRetryModel op j base maxd n
          = ((List.range (n - 1)).map fun i => retryDelay base maxd i + j i,
             .error (some e))) ∧
    (∀ k a, k < n → (∀ i, i < k → exceptOk (op i) = false) → op k = .ok a →
        asyncRetryModel op j base maxd n
          = ((List.range k).map fun i => retryDelay base maxd i + j i, .ok a)) ∧
    ((∀ i, |j i| ≤ retryDelay base maxd i / 10) →
        ∀ s ∈ (asyncRetryModel op j base maxd n).1,
          ∃ i, s = retryDelay base maxd i + j i ∧
            |s - retryDelay base maxd i| ≤ retryDelay base maxd i / 10) ∧
    (∀ op' : Nat → Except E A, (∀ k, k < n → op' k = op k) →
        asyncRetryModel op' j base maxd n = asyncRetryModel op j base maxd n) := by
  refine ⟨?_, ?_, ?_, ?_⟩
  · intro e hall hlast
    rw [asyncRetryModel,
      retryAux_all_fail op j base maxd n e hlast n 0 (by omega) (by omega)
        fun k _ hk2 => hall k hk2]
    rw [List.range_eq_range']
    simp
  · intro k a hk hbefore hok
    rw [asyncRetryModel,
      retryAux_first_ok op j base maxd n k a hk hok n 0 (by omega) (by omega)
        fun i _ h2 => hbefore i h2]
    rw [List.range_eq_range']
    simp
  · intro hj s hs
    obtain ⟨i, hi⟩ := retryAux_trace_mem op j base maxd n n 0 (by omega) s hs
    exact ⟨i, hi, by rw [hi, add_sub_cancel_left]; exact hj i⟩
  · intro op' hag
    exact retryAux_congr op op' j base maxd n n 0 (by omega) fun k _ h2 => hag k h2

/-- C8 witness: three attempts all failing with `"boom"` propagate
exactly `"boom"` after two backoff sleeps. -/
theorem async_retry_contract_witness :
    asyncRetryModel (fun _ => (Except.error "boom" : Except String Nat))
        (fun _ => (0 : ℚ)) 1 10 3
      = ((List.range 2).map fun i => retryDelay 1 10 i + 0,
         Except.error (some "boom")) :=
  (async_retry_contract (fun _ => (Except.error "boom" : Except String Nat))
      (fun _ => (0 : ℚ)) 1 10 3 (by norm_num)).1 "boom" (fun k _ => rfl) rfl

theorem pwdFilter_count (l : List (Option String)) (hl : l.Nodup) (p : String)
    (hp : p ≠ "") :
    (l.filterMap truthyPwd).count p = if some p ∈ l then 1 else 0 := by
  induction l with
  | nil => simp
  | cons o t ih =>
    have hnd := List.nodup_cons.mp hl
    cases o with
    | none =>
      rw [List.filterMap_cons_none rfl, ih hnd.2]
      simp
    | some s =>
      by_cases hs : s = ""
      · subst hs
        rw [List.filterMap_cons_none rfl, ih hnd.2]
        simp [hp]
      · have hf : truthyPwd (some s) = some s := by simp [truthyPwd, hs]
        rw [List.filterMap_cons_some hf]
        by_cases hps : p = s
        · subst hps
          have hnot : some p ∉ t := hnd.1
          rw [List.count_cons_self, ih hnd.2, if_neg hnot]
          simp
        · rw [List.count_cons_of_ne hps, ih hnd.2]
          have hmem : (some p ∈ some s :: t) ↔ some p ∈ t := by
            simp [hps]
          simp [hmem]

/-- C9 counterexample: on an empty store the export writes nothing, so
a stale address file survives — the address output then does not list
exactly the (zero) records of the partition. -/
theorem export_flat_counterexample :
    (save_as_txt ⟨[], some ["stale"], none⟩).urlFile = some ["stale"] ∧
    some ["stale"] ≠ some (([] : List LinkRecord).map fun r => r.download_url) := by
  exact ⟨rfl, by simp⟩

/-- C9 (amended): the flat export never mutates the JSON store and is
idempotent on it; for a non-empty store the address output lists
exactly each record's `download_url` (one per line, in store order) and
the password output is the deduplicated truthy password set, each
distinct non-empty password appearing exactly once; an empty store
leaves the previous export files untouched. -/
theorem export_flat_frame (fs : ExportFS) :
    (save_as_txt fs).store = fs.store ∧
    save_as_txt (save_as_txt fs) = save_as_txt fs ∧
    (fs.store ≠ [] →
      (save_as_txt fs).urlFile = some (fs.store.map fun r => r.download_url) ∧
      (save_as_txt fs).pwdFile = some (pwdLines fs.store)) ∧
    (∀ p : String, p ≠ "" →
      (pwdLines fs.store).count p
        = if some p ∈ fs.store.map (fun r => r.extract_pwd) then 1 else 0) := by
  refine ⟨rfl, ?_, ?_, ?_⟩
  · rw [save_as_txt, save_as_txt]
    cases h : fs.store with
    | nil => simp
    | cons a t => simp
  · intro hne
    rw [save_as_txt]
    constructor
    · simp [hne]
    · have : ¬ ((fs.store.map fun r => r.extract_pwd).dedup).isEmpty = true := by
        simp [List.isEmpty_iff, List.dedup_eq_nil, hne]
      simp only [this]
      simp [List.isEmpty_iff, List.dedup_eq_nil, hne]
  · intro p hp
    rw [pwdLines, pwdFilter_count _ (List.nodup_dedup _) p hp]
    congr 1
    simp [List.mem_dedup]

/-- C9 witness: a one-record store exports its address and its
password exactly once. -/
theorem export_flat_witness :
    (save_as_txt ⟨[⟨"n", "a", "u", none, some "pw"⟩], none, none⟩).urlFile
        = some (([⟨"n", "a", "u", none, some "pw"⟩] : List LinkRecord).map
            fun r => r.download_url) ∧
    (pwdLines [⟨"n", "a", "u", none, some "pw"⟩]).count "pw"
        = if some "pw" ∈ ([⟨"n", "a", "u", none, some "pw"⟩] : List LinkRecord).map
            (fun r => r.extract_pwd) then 1 else 0 :=
  ⟨((export_flat_frame ⟨[⟨"n", "a", "u", none, some "pw"⟩], none, none⟩).2.2.1
      (by decide)).1,
   (export_flat_frame ⟨[⟨"n", "a", "u", none, some "pw"⟩], none, none⟩).2.2.2
      "pw" (by decide)⟩

end Mhzx
